import Mathlib

/-!
Verification of the mem-vid-mcp memory store against its specification.

The development shallowly embeds the Python sources:
* `src/memvid_mcp/temporal.py`  — temporal knowledge graph (`MemVid.Temporal`)
* `src/memvid_mcp/decay.py`     — salience decay and reinforcement (`MemVid.Decay`)
* `src/memvid_mcp/waypoint.py`  — waypoint association graph (`MemVid.Waypoint`)
* `src/memvid_mcp/memory.py`    — memory core get/delete (`MemVid.Memory`)
* `src/memvid_mcp/dual_memory.py` — scope router recall (`MemVid.Dual`)

Python dicts (which iterate in insertion order) are embedded as association
lists in insertion order; `uuid.uuid4()` keys are passed in as explicit fresh
identifier arguments; timestamps are millisecond integers (`_parse_time` on the
ISO dates used below is evaluated to the corresponding UTC epoch values);
Python floats are embedded as `ℚ` where only field arithmetic occurs, and as
`ℝ` where `math.exp` is involved.  Persistence (`_save`/`_load`) and the video
index are I/O plumbing outside the verified state transitions.
-/

namespace MemVid

namespace Temporal

/-- One record of `TemporalGraph._facts` (temporal.py line 108): the dict keyed
by the fresh uuid, flattened into a structure carrying the key as `id`.
The free-form `metadata` payload is opaque and never read by the verified
operations, so it is omitted from the record. -/
structure Fact where
  id : String
  subject : String
  predicate : String
  obj : String
  valid_from : Int
  valid_to : Option Int
  confidence : ℚ
  last_updated : Int
deriving DecidableEq

/-- The body of the closing loop of `insert_fact` (temporal.py lines 96-105):
an open fact with the same subject and predicate that started strictly earlier
is closed 1 ms before the new fact starts and stamped. -/
def closeOld (subject predicate : String) (valid_from_ts now : Int)
    (f : Fact) : Fact :=
  if f.subject = subject ∧ f.predicate = predicate ∧ f.valid_to = none ∧
      f.valid_from < valid_from_ts then
    { f with valid_to := some (valid_from_ts - 1), last_updated := now }
  else f

/-- `TemporalGraph.insert_fact` (temporal.py lines 65-121).  `fact_id` stands
for the generated `uuid.uuid4()` (assumed fresh), `valid_from_ts` for
`self._parse_time(valid_from)` and `now` for `self._now_ts()`. -/
def insert_fact (facts : List Fact) (fact_id subject predicate obj : String)
    (valid_from_ts : Int) (confidence : ℚ) (now : Int) : List Fact :=
  facts.map (closeOld subject predicate valid_from_ts now) ++
  [{ id := fact_id, subject := subject, predicate := predicate, obj := obj,
     valid_from := valid_from_ts, valid_to := none, confidence := confidence,
     last_updated := now }]

/-- The selector tests of `query_at_time` (temporal.py lines 159-164):
`if subject and fact["subject"] != subject: continue`.  A `none` selector is an
omitted argument; `some s` is a supplied string, which Python treats as falsy
exactly when it is empty. -/
def selMatch (sel : Option String) (v : String) : Bool :=
  match sel with
  | none => true
  | some s => (s = "") || (v = s)

/-- `TemporalGraph.query_at_time` (temporal.py lines 123-168); `ts` is
`self._parse_time(at)`.  A fact is kept when none of the `continue` guards
fire: `valid_from ≤ ts`, `valid_to` null or `> ts`, `confidence ≥
min_confidence`, and all selectors match. -/
def query_at_time (facts : List Fact) (subject predicate obj : Option String)
    (ts : Int) (min_confidence : ℚ) : List Fact :=
  facts.filter fun f =>
    decide (f.valid_from ≤ ts) &&
    (match f.valid_to with
     | none => true
     | some vt => decide (ts < vt)) &&
    decide (min_confidence ≤ f.confidence) &&
    selMatch subject f.subject && selMatch predicate f.predicate &&
    selMatch obj f.obj

/-- The per-fact body of `TemporalGraph.apply_confidence_decay` (temporal.py
lines 240-253): closed facts and facts already at the 0.1 floor are skipped;
otherwise `new = max(0.1, confidence * (1 - decay_rate * days))` with
`days = (now - valid_from) / 86400000`, written back (with a fresh
`last_updated`) only when it differs. -/
def decayFact (decay_rate : ℚ) (now : Int) (f : Fact) : Fact :=
  if f.valid_to ≠ none then f
  else if f.confidence ≤ 1/10 then f
  else
    let days : ℚ := ((now - f.valid_from : Int) : ℚ) / 86400000
    let decay_factor : ℚ := 1 - decay_rate * days
    let new_confidence : ℚ := max (1/10) (f.confidence * decay_factor)
    if new_confidence ≠ f.confidence then
      { f with confidence := new_confidence, last_updated := now }
    else f

/-- `TemporalGraph.apply_confidence_decay` (temporal.py lines 224-258) as a
state transition.  Each loop iteration reads and writes only its own fact, so
the in-place dict mutation is a pointwise map; the returned update counter is
not modelled (no claim mentions it). -/
def apply_confidence_decay (facts : List Fact) (decay_rate : ℚ) (now : Int) :
    List Fact :=
  facts.map (decayFact decay_rate now)

/-- The arguments of one `insert_fact` call, for reasoning about call
sequences. -/
structure Ins where
  fact_id : String
  subject : String
  predicate : String
  obj : String
  valid_from_ts : Int
  confidence : ℚ
  now : Int
deriving DecidableEq

/-- Run a sequence of `insert_fact` calls. -/
def runInserts (facts : List Fact) : List Ins → List Fact
  | [] => facts
  | i :: rest =>
      runInserts
        (insert_fact facts i.fact_id i.subject i.predicate i.obj
          i.valid_from_ts i.confidence i.now) rest

/-- The test "open fact with subject `s` and predicate `p`". -/
def openP (s p : String) (f : Fact) : Bool :=
  decide (f.subject = s) && decide (f.predicate = p) &&
  decide (f.valid_to = none)

/-- Number of stored facts with the given subject and predicate whose
`valid_to` is null. -/
def countOpen (facts : List Fact) (s p : String) : Nat :=
  facts.countP (openP s p)

/-- The ordering side condition of the amended claim C1: of any two inserts in
sequence with the same subject and predicate, the later call carries the
strictly larger `valid_from`. -/
abbrev InsRel (a b : Ins) : Prop :=
  a.subject = b.subject → a.predicate = b.predicate →
    a.valid_from_ts < b.valid_from_ts

/-- The invariant of claim C1: at most one open fact per (subject, predicate)
pair. -/
def AtMostOneOpen (facts : List Fact) : Prop :=
  ∀ s p, countOpen facts s p ≤ 1

/-- A public operation of the temporal graph touched by claim C3. -/
inductive Op where
  | ins (fact_id subject predicate obj : String) (valid_from_ts : Int)
      (confidence : ℚ) (now : Int)
  | dec (decay_rate : ℚ) (now : Int)
deriving DecidableEq

def applyOp (facts : List Fact) : Op → List Fact
  | .ins fid s p o vf c n => insert_fact facts fid s p o vf c n
  | .dec r n => apply_confidence_decay facts r n

def runOps (facts : List Fact) : List Op → List Fact
  | [] => facts
  | op :: rest => runOps (applyOp facts op) rest

/-- Side conditions of the amended claim C3 on one operation: inserted
confidences lie in [0.1, 1], decay is run with a nonnegative rate at a time
not earlier than any open fact's `valid_from`. -/
def ValidOp (facts : List Fact) : Op → Prop
  | .ins _ _ _ _ _ c _ => 1/10 ≤ c ∧ c ≤ 1
  | .dec r n => 0 ≤ r ∧ ∀ f ∈ facts, f.valid_to = none → f.valid_from ≤ n

def ValidTrace : List Fact → List Op → Prop
  | _, [] => True
  | facts, op :: rest => ValidOp facts op ∧ ValidTrace (applyOp facts op) rest

/-- The confidence invariant of claim C3. -/
def ConfInv (facts : List Fact) : Prop :=
  ∀ f ∈ facts, 1/10 ≤ f.confidence ∧ f.confidence ≤ 1

/-- 2020-01-01T00:00Z as a millisecond epoch. -/
def T2020 : Int := 1577836800000

/-- 2024-01-01T00:00Z as a millisecond epoch. -/
def T2024 : Int := 1704067200000

/-- 2022-06-01T00:00Z as a millisecond epoch. -/
def T2022JUN : Int := 1654041600000

/-- The state of claim C2's scenario: insert (Alice, works_at, Google) valid
from 2020-01-01, then (Alice, works_at, Meta) valid from 2024-01-01, on an
empty graph.  The wall-clock `now` of each call (which lands only in
`last_updated`) is taken to be the respective `valid_from` instant. -/
def c2State : List Fact :=
  insert_fact
    (insert_fact [] "fact-google" "Alice" "works_at" "Google" T2020 1 T2020)
    "fact-meta" "Alice" "works_at" "Meta" T2024 1 T2024

end Temporal

namespace Decay

/-- `REINFORCE_BOOST` (decay.py line 26). -/
def REINFORCE_BOOST : ℚ := 15/100

/-- The fields of a memory record read by `reinforce` (decay.py).  Salience
arithmetic in `reinforce` is field arithmetic only, so it is embedded over
`ℚ`; `MAX_SALIENCE = 1.0` appears inline as `1`. -/
structure RMem where
  salience : ℚ
  last_seen_at : Int
  coactivations : ℕ
deriving DecidableEq

/-- `reinforce` (decay.py lines 133-157).  `boost` is the resolved boost (a
Python `None` argument resolves to `REINFORCE_BOOST` before this point) and
`now` the current ms timestamp. -/
def reinforce (m : RMem) (boost : ℚ) (now : Int) : RMem :=
  { salience := min 1 (m.salience + boost * (1 - m.salience)),
    last_seen_at := now,
    coactivations := m.coactivations + 1 }

/-- `k` successive `reinforce` calls on the same memory. -/
def reinforceIter (m : RMem) (boost : ℚ) (now : Int) : ℕ → RMem
  | 0 => m
  | k+1 => reinforce (reinforceIter m boost now k) boost now

/-- The three decay tiers; `pick_tier` returns their string names in the
source, used only as keys of `DECAY_RATES`. -/
inductive Tier where
  | hot
  | warm
  | cold
deriving DecidableEq

/-- `DECAY_RATES` (decay.py lines 14-18). -/
noncomputable def DECAY_RATES : Tier → ℝ
  | .hot => 1/200
  | .warm => 1/50
  | .cold => 1/20

/-- Tier thresholds (decay.py lines 21-23). -/
def HOT_RECENCY_DAYS : ℝ := 6

noncomputable def HOT_SALIENCE : ℝ := 7/10

noncomputable def WARM_SALIENCE : ℝ := 2/5

/-- `MIN_SALIENCE` / `MAX_SALIENCE` (decay.py lines 27-28). -/
def MIN_SALIENCE : ℝ := 0

def MAX_SALIENCE : ℝ := 1

/-- The fields of a memory record read by `pick_tier`/`calculate_decay`
(decay.py).  `calculate_decay` applies `math.exp`, so this side of the engine
is embedded over `ℝ`.  `.get` defaults (`salience` 0.5, `coactivations` 0,
`primary_sector` "semantic", `last_seen_at` falling back to `updated_at`) are
resolved into the fields. -/
structure DMem where
  salience : ℝ
  last_seen_at : Int
  coactivations : ℕ
  primary_sector : String

/-- `pick_tier` (decay.py lines 31-59). -/
noncomputable def pick_tier (m : DMem) (now_ts : Int) : Tier :=
  let days_since : ℝ := ((now_ts - m.last_seen_at : Int) : ℝ) / 86400000
  if days_since < HOT_RECENCY_DAYS ∧ (5 < m.coactivations ∨ HOT_SALIENCE < m.salience)
  then .hot
  else if days_since < HOT_RECENCY_DAYS ∨ WARM_SALIENCE < m.salience then .warm
  else .cold

/-- `calculate_decay` (decay.py lines 62-95).  Note the Python idiom
`sector_decay_lambda or DECAY_RATES[tier]`: a supplied rate of `0.0` is falsy
and falls back to the tier rate exactly like `None`. -/
noncomputable def calculate_decay (m : DMem) (now_ts : Int)
    (sector_decay_lambda : Option ℝ) : ℝ :=
  let days : ℝ := max 0 (((now_ts - m.last_seen_at : Int) : ℝ) / 86400000)
  let tier := pick_tier m now_ts
  let decay_lambda : ℝ :=
    match sector_decay_lambda with
    | some lam => if lam = 0 then DECAY_RATES tier else lam
    | none => DECAY_RATES tier
  max MIN_SALIENCE (min MAX_SALIENCE
    (m.salience * Real.exp (-(decay_lambda * (days / (m.salience + 1/10))))))

/-- The memory record with the freshly computed salience written back
(`memory["salience"] = new_salience`, decay.py line 127). -/
noncomputable def decayedMem (sector_decay_lambdas : String → Option ℝ)
    (now_ts : Int) (p : String × DMem) : DMem :=
  { p.2 with
    salience := calculate_decay p.2 now_ts
      (sector_decay_lambdas p.2.primary_sector) }

/-- One iteration of the `for mem_id, memory in memories.items()` loop of
`apply_decay_to_memories` (decay.py lines 115-128): the accumulator carries
the memories written so far and the ids counted as updated; the salience is
written back, and the id appended, only on a significant change. -/
noncomputable def decayStep (sector_decay_lambdas : String → Option ℝ)
    (now_ts : Int) (acc : List (String × DMem) × List String)
    (p : String × DMem) : List (String × DMem) × List String :=
  if 1/1000 <
      |calculate_decay p.2 now_ts (sector_decay_lambdas p.2.primary_sector)
        - p.2.salience| then
    (acc.1 ++ [(p.1, decayedMem sector_decay_lambdas now_ts p)],
     acc.2 ++ [p.1])
  else (acc.1 ++ [(p.1, p.2)], acc.2)

/-- `apply_decay_to_memories` (decay.py lines 98-130) as a state transition.
The dict of memories is an association list; the Python function mutates the
dict in place and returns the updated ids, so here it returns the new list
paired with the ids.  An absent `sector_decay_lambdas` dict is the constant
`none` function. -/
noncomputable def apply_decay_to_memories (memories : List (String × DMem))
    (sector_decay_lambdas : String → Option ℝ) (now_ts : Int) :
    List (String × DMem) × List String :=
  memories.foldl (decayStep sector_decay_lambdas now_ts) ([], [])

/-- The per-memory outcome the spec describes for the batch pass: written
back exactly when the change is significant. -/
noncomputable def decayWriteBack (sector_decay_lambdas : String → Option ℝ)
    (now_ts : Int) (p : String × DMem) : String × DMem :=
  if 1/1000 <
      |calculate_decay p.2 now_ts (sector_decay_lambdas p.2.primary_sector)
        - p.2.salience| then
    (p.1, decayedMem sector_decay_lambdas now_ts p)
  else p

/-- The per-memory update-counting test of the batch pass. -/
noncomputable def decayCounted (sector_decay_lambdas : String → Option ℝ)
    (now_ts : Int) (p : String × DMem) : Option String :=
  if 1/1000 <
      |calculate_decay p.2 now_ts (sector_decay_lambdas p.2.primary_sector)
        - p.2.salience| then
    some p.1
  else none

/-- The decay formula exactly as the (amended) spec sentence words it:
`new = clamp(salience · exp(−λ · days / (salience + 0.1)), 0, 1)` with
`days = (now − last_seen_at)/86400000` and λ the sector-specific rate when
supplied and nonzero, otherwise the tier rate.  Kept separate from
`calculate_decay` (which is translated from the code) so the two can be
compared. -/
noncomputable def decaySpecSalience (m : DMem) (now_ts : Int)
    (sector_decay_lambda : Option ℝ) : ℝ :=
  let days : ℝ := ((now_ts - m.last_seen_at : Int) : ℝ) / 86400000
  let lam : ℝ :=
    match sector_decay_lambda with
    | some lam => if lam = 0 then DECAY_RATES (pick_tier m now_ts) else lam
    | none => DECAY_RATES (pick_tier m now_ts)
  max 0 (min 1 (m.salience * Real.exp (-(lam * days / (m.salience + 1/10)))))

/-- The memory of the C6 scenario analyses: salience 0.5, last seen at epoch
0, no coactivations, semantic sector. -/
noncomputable def dmemHalf : DMem :=
  { salience := 1/2, last_seen_at := 0, coactivations := 0,
    primary_sector := "semantic" }

/-- A blank memory: salience 0, last seen at epoch 0. -/
noncomputable def dmemZero : DMem :=
  { salience := 0, last_seen_at := 0, coactivations := 0,
    primary_sector := "semantic" }

/-- The decay formula exactly as claim C6 words it, with λ being the supplied
sector-specific rate itself whenever one is supplied.  Used to refute the
unamended claim. -/
noncomputable def claimedDecayC6 (m : DMem) (now_ts : Int) (lam : ℝ) : ℝ :=
  max 0 (min 1 (m.salience * Real.exp
    (-(lam * (((now_ts - m.last_seen_at : Int) : ℝ) / 86400000)
      / (m.salience + 1/10)))))

end Decay

namespace Waypoint

/-- One value of the inner dict of `WaypointGraph._edges` (waypoint.py line
42). -/
structure WEdge where
  weight : ℚ
  created_at : Int
  updated_at : Int
deriving DecidableEq

/-- `WaypointGraph._edges`: `{src_id: {dst_id: edge}}`, embedded as nested
association lists in insertion order. -/
abbrev Graph := List (String × List (String × WEdge))

/-- An element of the list returned by `get_neighbors`. -/
structure Neighbor where
  id : String
  weight : ℚ
deriving DecidableEq

/-- An element of the queue/result of `expand`: `{id, weight, path}`. -/
structure EItem where
  id : String
  weight : ℚ
  path : List String
deriving DecidableEq

/-- `INITIAL_WEIGHT` (waypoint.py line 26). -/
def INITIAL_WEIGHT : ℚ := 1/2

/-- Dict lookup `self._edges.get(src)`. -/
def lookupDsts (g : Graph) (src : String) : Option (List (String × WEdge)) :=
  (g.find? fun q => q.1 == src).map fun q => q.2

/-- Dict assignment `dsts[dst] = e`: overwrite in place, else append. -/
def setEdge (dsts : List (String × WEdge)) (dst : String) (e : WEdge) :
    List (String × WEdge) :=
  if dsts.any fun q => q.1 == dst then
    dsts.map fun q => if q.1 == dst then (q.1, e) else q
  else dsts ++ [(dst, e)]

/-- `self._edges[src][dst] = e`, creating `self._edges[src] = {}` first when
absent (waypoint.py lines 84-91). -/
def setSrcEdge (g : Graph) (src dst : String) (e : WEdge) : Graph :=
  if g.any fun q => q.1 == src then
    g.map fun q => if q.1 == src then (q.1, setEdge q.2 dst e) else q
  else g ++ [(src, setEdge [] dst e)]

/-- `WaypointGraph.create_waypoint` (waypoint.py lines 61-104); `weight` is
the resolved weight (`None` resolves to `INITIAL_WEIGHT`). -/
def create_waypoint (g : Graph) (src_id dst_id : String) (weight : ℚ)
    (bidirectional : Bool) (now : Int) : Graph :=
  if src_id = dst_id then g
  else
    let e : WEdge := { weight := weight, created_at := now, updated_at := now }
    let g1 := setSrcEdge g src_id dst_id e
    if bidirectional then setSrcEdge g1 dst_id src_id e else g1

/-- `WaypointGraph.get_neighbors` (waypoint.py lines 106-127): the dst entries
as `{id, weight}`, sorted by weight descending (Python `sort` is stable, as is
`mergeSort`). -/
def get_neighbors (g : Graph) (mem_id : String) : List Neighbor :=
  match lookupDsts g mem_id with
  | none => []
  | some dsts =>
      (dsts.map fun q => ({ id := q.1, weight := q.2.weight } : Neighbor)).mergeSort
        fun a b => decide (b.weight ≤ a.weight)

/-- The inner `for neighbor in neighbors` loop of `expand` (waypoint.py lines
160-183), threading `(visited, count, emitted-children)` and breaking as soon
as `count` reaches `max_expansion`. -/
def expandStep (minw : ℚ) (maxe : ℕ) (current : EItem) :
    List Neighbor → List String → ℕ → List EItem →
    List String × ℕ × List EItem
  | [], visited, count, emitted => (visited, count, emitted)
  | n :: rest, visited, count, emitted =>
    if n.id ∈ visited then
      expandStep minw maxe current rest visited count emitted
    else
      let new_weight := current.weight * n.weight * (4/5)
      if new_weight < minw then
        expandStep minw maxe current rest visited count emitted
      else
        let item : EItem :=
          { id := n.id, weight := new_weight, path := current.path ++ [n.id] }
        if maxe ≤ count + 1 then
          (n.id :: visited, count + 1, emitted ++ [item])
        else
          expandStep minw maxe current rest (n.id :: visited) (count + 1)
            (emitted ++ [item])

/-- The outer `while queue and count < max_expansion` loop of `expand`
(waypoint.py lines 156-183).  Emitted children are appended both to the queue
and to the result accumulator, exactly as in the source.  The loop is driven
by explicit fuel; see `expand` for why the supplied fuel always suffices. -/
def expandLoop (g : Graph) (minw : ℚ) (maxe : ℕ) :
    ℕ → List EItem → List String → ℕ → List EItem → List EItem
  | 0, _, _, _, expanded => expanded
  | _+1, [], _, _, expanded => expanded
  | fuel+1, current :: rest, visited, count, expanded =>
    if maxe ≤ count then expanded
    else
      let r := expandStep minw maxe current (get_neighbors g current.id)
        visited count []
      expandLoop g minw maxe fuel (rest ++ r.2.2) r.1 r.2.1 (expanded ++ r.2.2)

/-- `WaypointGraph.expand` (waypoint.py lines 129-187).  Fuel adequacy: one
outer iteration pops one queue entry and pushes `k` children while adding `k`
to `count`, so the measure `(max_expansion - count) + |queue|` drops by at
least one per iteration and the loop performs at most
`max_expansion + |seeds|` iterations; the fuel below is one more than that. -/
def expand (g : Graph) (seed_ids : List String) (max_expansion : ℕ)
    (min_weight : ℚ) : List EItem :=
  let queue := seed_ids.map fun sid =>
    ({ id := sid, weight := 1, path := [sid] } : EItem)
  let expanded := expandLoop g min_weight max_expansion
    (max_expansion + seed_ids.length + 1) queue seed_ids 0 []
  expanded.mergeSort fun a b => decide (b.weight ≤ a.weight)

/-- `WaypointGraph.remove_memory` (waypoint.py lines 216-232): drop the
outgoing dict of `mem_id`, then delete `mem_id` from every remaining inner
dict (empty inner dicts are left in place, as in the source). -/
def remove_memory (g : Graph) (mem_id : String) : Graph :=
  (g.filter fun q => q.1 != mem_id).map fun q =>
    (q.1, q.2.filter fun r => r.1 != mem_id)

/-- The edge relation of the graph: `EdgeOf g src dst w` holds when the dict
lookup `g[src]` succeeds and its inner dict holds an entry `(dst, e)` of
weight `w`. -/
def EdgeOf (g : Graph) (src dst : String) (w : ℚ) : Prop :=
  ∃ dsts, lookupDsts g src = some dsts ∧ ∃ e, (dst, e) ∈ dsts ∧ e.weight = w

/-- The items `expand` can legitimately build: a seed item of weight 1, or a
child of an item reached over an existing edge, with weight
`parent.weight * edge.weight * 0.8` and the parent's path extended by the
child id. -/
inductive GoodItem (g : Graph) (seeds : List String) : EItem → Prop where
  | seed (s : String) (h : s ∈ seeds) :
      GoodItem g seeds { id := s, weight := 1, path := [s] }
  | step (cur : EItem) (d : String) (w : ℚ) (hc : GoodItem g seeds cur)
      (he : EdgeOf g cur.id d w) :
      GoodItem g seeds
        { id := d, weight := cur.weight * w * (4/5), path := cur.path ++ [d] }

/-- An item obtained by exactly one traversal step from a legitimate parent:
this is the decomposition every emitted item admits. -/
def StepFrom (g : Graph) (seeds : List String) (i : EItem) : Prop :=
  ∃ cur d w, GoodItem g seeds cur ∧ EdgeOf g cur.id d w ∧
    i = { id := d, weight := cur.weight * w * (4/5), path := cur.path ++ [d] }

/-- All edge weights lie in (0, 1] (the spec range for stored weights). -/
abbrev PosWeights (g : Graph) : Prop :=
  ∀ p ∈ g, ∀ q ∈ p.2, 0 < q.2.weight ∧ q.2.weight ≤ 1

/-- A concrete two-node graph with unit edge weights, used to witness the
expansion contract. -/
def c7Graph : Graph :=
  [("m1", [("m2", { weight := 1, created_at := 0, updated_at := 0 })]),
   ("m2", [("m1", { weight := 1, created_at := 0, updated_at := 0 })])]

end Waypoint

namespace Memory

/-- The fields of a stored memory record that `get`/`delete` read: the tenant
guard uses `user_id` only; `content` stands for the unread remainder of the
record, which rides along unchanged. -/
structure Mem where
  user_id : String
  content : String
deriving DecidableEq

/-- The mutable state of one `MemvidMemory` core: `_memories` (dict id →
record, as an insertion-ordered association list), `_waypoints._edges`,
`_temporal._facts` and `default_user`.  The video/index files and the `_dirty`
flag are persistence plumbing. -/
structure MState where
  memories : List (String × Mem)
  waypoints : Waypoint.Graph
  facts : List Temporal.Fact
  default_user : String
deriving DecidableEq

/-- `self._memories.get(memory_id)`. -/
def lookupMem (ms : List (String × Mem)) (mid : String) : Option Mem :=
  (ms.find? fun q => q.1 == mid).map fun q => q.2

/-- `uid = user_id or self.default_user`: Python truthiness sends both `None`
and the empty string to the default tenant. -/
def resolveUid (user_id : Option String) (default_user : String) : String :=
  match user_id with
  | none => default_user
  | some u => if u = "" then default_user else u

/-- `MemvidMemory.get` (memory.py lines 323-333). -/
def get (st : MState) (memory_id : String) (user_id : Option String) :
    Option Mem :=
  match lookupMem st.memories memory_id with
  | none => none
  | some mem =>
      if mem.user_id ≠ resolveUid user_id st.default_user then none
      else some mem

/-- `MemvidMemory.delete` (memory.py lines 335-351): on success the entry is
deleted and `WaypointGraph.remove_memory` cascades; `_save_metadata` and
`_rebuild_video` only persist the state returned here. -/
def delete (st : MState) (memory_id : String) (user_id : Option String) :
    Bool × MState :=
  match lookupMem st.memories memory_id with
  | none => (false, st)
  | some mem =>
      if mem.user_id ≠ resolveUid user_id st.default_user then (false, st)
      else
        (true,
         { st with
            memories := st.memories.filter fun q => q.1 != memory_id,
            waypoints := Waypoint.remove_memory st.waypoints memory_id })

/-- The state of claim C8's scenario: memories m1, m2, m3 under the default
tenant, with bidirectional waypoints m1↔m2 and m1↔m3 at the initial
weight. -/
def c8State : MState :=
  { memories := [("m1", { user_id := "default", content := "one" }),
                 ("m2", { user_id := "default", content := "two" }),
                 ("m3", { user_id := "default", content := "three" })],
    waypoints := Waypoint.create_waypoint
      (Waypoint.create_waypoint [] "m1" "m2" Waypoint.INITIAL_WEIGHT true 0)
      "m1" "m3" Waypoint.INITIAL_WEIGHT true 0,
    facts := [],
    default_user := "default" }

/-- No stored edge has `mem_id` as source or destination. -/
abbrev NoIncident (g : Waypoint.Graph) (mem_id : String) : Prop :=
  ∀ p ∈ g, p.1 ≠ mem_id ∧ ∀ q ∈ p.2, q.1 ≠ mem_id

end Memory

namespace Dual

/-- `PROJECT_BOOST` (dual_memory.py line 65). -/
def PROJECT_BOOST : ℚ := 6/5

/-- `DEDUP_THRESHOLD` (dual_memory.py line 66). -/
def DEDUP_THRESHOLD : ℚ := 9/10

/-- A search result dict as `recall` sees it: `content` and `score` are always
present on results produced by `MemvidMemory.search`; `scope` and
`original_score` are the keys `recall` itself may add. -/
structure RResult where
  content : String
  score : ℚ
  scope : Option String
  original_score : Option ℚ
deriving DecidableEq

/-- The per-result body of the project loop of `recall` (dual_memory.py lines
185-188): tag scope, save the original score, boost. -/
def tagProject (r : RResult) : RResult :=
  { r with scope := some "project", original_score := some r.score,
           score := r.score * PROJECT_BOOST }

/-- The per-result body of the user loop of `recall` (dual_memory.py lines
190-191). -/
def tagUser (r : RResult) : RResult := { r with scope := some "user" }

/-- The greedy loop of `_deduplicate` (dual_memory.py lines 210-223); `sim`
abstracts `np.dot` of the unit-norm embeddings of two contents. -/
def dedupGo (sim : String → String → ℚ) :
    List RResult → List RResult → List RResult
  | kept, [] => kept
  | kept, r :: rest =>
      if kept.any fun k => decide (DEDUP_THRESHOLD ≤ sim r.content k.content)
      then dedupGo sim kept rest
      else dedupGo sim (kept ++ [r]) rest

/-- `DualMemoryManager._deduplicate` (dual_memory.py lines 202-223). -/
def deduplicate (sim : String → String → ℚ) (results : List RResult) :
    List RResult :=
  if results.length ≤ 1 then results else dedupGo sim [] results

/-- `DualMemoryManager.recall` (dual_memory.py lines 151-200), parameterised
by the two cores' `search` operations (limit ↦ results; query, tags, sector
and waypoint expansion are fixed arguments of the call and folded into these
functions) and by the embedding similarity used for deduplication.  Note
`fetch_limit = int(limit * 1.5)` truncates: for the RPC-admissible range of
`limit` the float product is exact, so this is `⌊3·limit/2⌋`. -/
def «recall» (searchProject searchUser : ℕ → List RResult)
    (sim : String → String → ℚ) (limit : ℕ) : List RResult :=
  let fetch_limit := 3 * limit / 2
  let project_results := (searchProject fetch_limit).map tagProject
  let user_results := (searchUser fetch_limit).map tagUser
  let all_results := project_results ++ user_results
  if all_results.length ≤ 1 then all_results.take limit
  else
    ((deduplicate sim all_results).mergeSort
      fun a b => decide (b.score ≤ a.score)).take limit

/-- A bare search result with content "A" and score 0. -/
def c4A : RResult :=
  { content := "A", score := 0, scope := none, original_score := none }

/-- A bare search result with content "B" and score 0. -/
def c4B : RResult :=
  { content := "B", score := 0, scope := none, original_score := none }

/-- An instrumented project search that reveals the requested limit through
the returned content: "A" exactly at request size 1, "B" otherwise. -/
def c4SpyProject : ℕ → List RResult := fun k =>
  if k = 1 then [c4A] else [c4B]

/-- A user search returning nothing. -/
def c4SpyUser : ℕ → List RResult := fun _ => []

/-- A trivial similarity: all contents completely dissimilar. -/
def c4Sim : String → String → ℚ := fun _ _ => 0

end Dual

end MemVid

/-! ## Theorems -/

namespace MemVid

namespace Temporal

lemma closeOld_subject (s p : String) (vf n : Int) (f : Fact) :
    (closeOld s p vf n f).subject = f.subject := by
  unfold closeOld; split <;> rfl

lemma closeOld_predicate (s p : String) (vf n : Int) (f : Fact) :
    (closeOld s p vf n f).predicate = f.predicate := by
  unfold closeOld; split <;> rfl

lemma closeOld_valid_from (s p : String) (vf n : Int) (f : Fact) :
    (closeOld s p vf n f).valid_from = f.valid_from := by
  unfold closeOld; split <;> rfl

lemma closeOld_confidence (s p : String) (vf n : Int) (f : Fact) :
    (closeOld s p vf n f).confidence = f.confidence := by
  unfold closeOld; split <;> rfl

lemma closeOld_obj (s p : String) (vf n : Int) (f : Fact) :
    (closeOld s p vf n f).obj = f.obj := by
  unfold closeOld; split <;> rfl

/-- Once all open facts matching the inserted subject and predicate start
strictly before the new `valid_from`, the closing loop closes all of them. -/
lemma openP_closeOld (s p : String) (vf n : Int) (f : Fact)
    (h : f.subject = s → f.predicate = p → f.valid_to = none →
      f.valid_from < vf) :
    openP s p (closeOld s p vf n f) = false := by
  unfold closeOld
  split
  · simp [openP]
  · rename_i hcond
    by_cases hs : f.subject = s
    · by_cases hp : f.predicate = p
      · by_cases ho : f.valid_to = none
        · exact absurd ⟨hs, hp, ho, h hs hp ho⟩ hcond
        · simp [openP, ho]
      · simp [openP, hp]
    · simp [openP, hs]

/-- The closing loop does not affect the open count of any other
(subject, predicate) pair. -/
lemma openP_closeOld_other (s p s' p' : String) (vf n : Int) (f : Fact)
    (hne : ¬(s = s' ∧ p = p')) :
    openP s' p' (closeOld s p vf n f) = openP s' p' f := by
  unfold closeOld
  split
  · rename_i hcond
    obtain ⟨hs, hp, hopen, _⟩ := hcond
    have hout : ¬(f.subject = s' ∧ f.predicate = p') := by
      intro hx
      exact hne ⟨hs ▸ hx.1, hp ▸ hx.2⟩
    rcases not_and_or.mp hout with hx | hx <;>
      simp [openP, hx]
  · rfl

lemma countOpen_insert_same (facts : List Fact) (fid s p o : String) (vf : Int)
    (c : ℚ) (n : Int)
    (hall : ∀ f ∈ facts, f.subject = s → f.predicate = p → f.valid_to = none →
      f.valid_from < vf) :
    countOpen (insert_fact facts fid s p o vf c n) s p = 1 := by
  unfold insert_fact countOpen
  rw [List.countP_append, List.countP_map]
  have h0 : facts.countP (openP s p ∘ closeOld s p vf n) = 0 :=
    List.countP_eq_zero.mpr fun f hf => by
      simp only [Function.comp_apply, openP_closeOld s p vf n f (hall f hf)]
      exact Bool.false_ne_true
  rw [h0]
  simp [openP]

lemma countOpen_insert_other (facts : List Fact) (fid s p o : String)
    (vf : Int) (c : ℚ) (n : Int) (s' p' : String) (hne : ¬(s = s' ∧ p = p')) :
    countOpen (insert_fact facts fid s p o vf c n) s' p'
      = countOpen facts s' p' := by
  unfold insert_fact countOpen
  rw [List.countP_append, List.countP_map]
  have h1 : facts.countP (openP s' p' ∘ closeOld s p vf n)
      = facts.countP (openP s' p') :=
    List.countP_congr fun f _ => by
      simp only [Function.comp_apply, openP_closeOld_other s p s' p' vf n f hne]
  rw [h1]
  rcases not_and_or.mp hne with hx | hx <;> simp [openP, hx]

/-- Induction core for the amended claim C1. -/
lemma runInserts_atMostOneOpen :
    ∀ (ops : List Ins) (facts : List Fact),
      AtMostOneOpen facts →
      (∀ f ∈ facts, ∀ i ∈ ops, f.subject = i.subject →
        f.predicate = i.predicate → f.valid_from < i.valid_from_ts) →
      ops.Pairwise InsRel →
      AtMostOneOpen (runInserts facts ops)
  | [], _, h1, _, _ => h1
  | i :: rest, facts, h1, h2, hp => by
    have hpc := List.pairwise_cons.mp hp
    apply runInserts_atMostOneOpen rest
    · intro s' p'
      by_cases hsp : i.subject = s' ∧ i.predicate = p'
      · obtain ⟨hs, hp'⟩ := hsp
        subst hs; subst hp'
        rw [countOpen_insert_same facts i.fact_id i.subject i.predicate i.obj
          i.valid_from_ts i.confidence i.now
          (fun f hf hs hpr _ => h2 f hf i (List.mem_cons_self i rest) hs hpr)]
      · rw [countOpen_insert_other facts i.fact_id i.subject i.predicate i.obj
          i.valid_from_ts i.confidence i.now s' p' hsp]
        exact h1 s' p'
    · intro f hf j hj hsub hpred
      rcases List.mem_append.mp hf with hf1 | hf2
      · obtain ⟨f0, hf0, rfl⟩ := List.mem_map.mp hf1
        rw [closeOld_valid_from]
        rw [closeOld_subject] at hsub
        rw [closeOld_predicate] at hpred
        exact h2 f0 hf0 j (List.mem_cons_of_mem i hj) hsub hpred
      · have hfe := List.mem_singleton.mp hf2
        subst hfe
        exact hpc.1 j hj hsub hpred
    · exact hpc.2

/-- C1 (counterexample): the claim quantifies over arbitrary, including
out-of-order, `valid_from` arguments.  Inserting (alice, works_at, google)
valid from 100 and then (alice, works_at, meta) valid from 50 leaves both
facts open, because `insert_fact` only closes existing open facts whose
`valid_from` is strictly smaller than the incoming one (temporal.py line
101). -/
theorem C1_counterexample :
    ¬ AtMostOneOpen (runInserts []
      [{ fact_id := "f1", subject := "alice", predicate := "works_at",
         obj := "google", valid_from_ts := 100, confidence := 1, now := 0 },
       { fact_id := "f2", subject := "alice", predicate := "works_at",
         obj := "meta", valid_from_ts := 50, confidence := 1, now := 5 }]) :=
  fun h => absurd (h "alice" "works_at") (by decide)

/-- C1 (amended): for every state reachable by a sequence of `insert_fact`
calls in which any two calls sharing a (subject, predicate) pair arrive in
strictly increasing `valid_from` order, at most one stored fact per
(subject, predicate) has `valid_to = null`. -/
theorem C1_atMostOneOpenPerPair (ops : List Ins) (h : ops.Pairwise InsRel) :
    AtMostOneOpen (runInserts [] ops) :=
  runInserts_atMostOneOpen ops []
    (fun s p => by simp [countOpen])
    (fun f hf => absurd hf (List.not_mem_nil f))
    h

/-- Witness for `C1_atMostOneOpenPerPair` at a concrete in-order trace. -/
theorem C1_witness :
    List.Pairwise InsRel
      [{ fact_id := "f1", subject := "alice", predicate := "works_at",
         obj := "google", valid_from_ts := 100, confidence := 1, now := 0 },
       { fact_id := "f2", subject := "alice", predicate := "works_at",
         obj := "meta", valid_from_ts := 200, confidence := 1, now := 5 }] ∧
    AtMostOneOpen (runInserts []
      [{ fact_id := "f1", subject := "alice", predicate := "works_at",
         obj := "google", valid_from_ts := 100, confidence := 1, now := 0 },
       { fact_id := "f2", subject := "alice", predicate := "works_at",
         obj := "meta", valid_from_ts := 200, confidence := 1, now := 5 }]) :=
  ⟨by decide, C1_atMostOneOpenPerPair _ (by decide)⟩

/-- Evaluating the scenario state of claim C2: the Google fact is closed 1 ms
before 2024-01-01 and the Meta fact is open. -/
lemma c2State_eq :
    c2State =
      [{ id := "fact-google", subject := "Alice", predicate := "works_at",
         obj := "Google", valid_from := T2020, valid_to := some (T2024 - 1),
         confidence := 1, last_updated := T2024 },
       { id := "fact-meta", subject := "Alice", predicate := "works_at",
         obj := "Meta", valid_from := T2024, valid_to := none,
         confidence := 1, last_updated := T2024 }] := by
  decide

/-- C2: after inserting (Alice, works_at, Google, valid_from = 2020-01-01)
and then (Alice, works_at, Meta, valid_from = 2024-01-01) into an empty
graph, the Google fact's `valid_to` is the Meta fact's `valid_from` minus
1 ms; `query_at_time` for subject Alice at 2022-06-01 returns exactly one
fact, with object Google; and the same query at any current time `now` (any
instant not before 2024-01-01) returns exactly one fact, with object Meta. -/
theorem C2_temporalEvolution (now : Int) (h : T2024 ≤ now) :
    (c2State.head?.map Fact.valid_to) = some (some (T2024 - 1)) ∧
    (query_at_time c2State (some "Alice") none none T2022JUN (1/10)).map
      Fact.obj = ["Google"] ∧
    (query_at_time c2State (some "Alice") none none now (1/10)).map
      Fact.obj = ["Meta"] := by
  refine ⟨by decide, ?_, ?_⟩
  · rw [c2State_eq]
    norm_num [query_at_time, List.filter, selMatch, T2020, T2024, T2022JUN]
  rw [c2State_eq]
  have h1 : ¬ (now < T2024 - 1) := by unfold T2024 at *; omega
  have h2 : T2020 ≤ now := by unfold T2020; unfold T2024 at h; omega
  have h3 : (1:ℚ)/10 ≤ 1 := by norm_num
  have h4 : ((10:ℚ))⁻¹ ≤ 1 := by norm_num
  simp [query_at_time, List.filter, selMatch, h1, h2, h, h3, h4]

/-- Witness for `C2_temporalEvolution` at the concrete instant
2025-10-12T00:00Z. -/
theorem C2_witness :
    T2024 ≤ 1760227200000 ∧
    (query_at_time c2State (some "Alice") none none 1760227200000 (1/10)).map
      Fact.obj = ["Meta"] :=
  ⟨by decide, (C2_temporalEvolution 1760227200000 (by decide)).2.2⟩

lemma c3BadState1_eq :
    runOps [] [.ins "f1" "alice" "works_at" "google" 0 (1/20) 0]
      = [{ id := "f1", subject := "alice", predicate := "works_at",
           obj := "google", valid_from := 0, valid_to := none,
           confidence := 1/20, last_updated := 0 }] := rfl

lemma c3BadState2_eq :
    runOps [] [.ins "f1" "alice" "works_at" "google" 864000000 1 0,
        .dec (1/100) 0]
      = [{ id := "f1", subject := "alice", predicate := "works_at",
           obj := "google", valid_from := 864000000, valid_to := none,
           confidence := 11/10, last_updated := 0 }] := by
  norm_num [runOps, applyOp, insert_fact, apply_confidence_decay, decayFact,
    closeOld]

lemma confInv_insert (facts : List Fact) (fid s p o : String) (vf : Int)
    (c : ℚ) (n : Int) (hc1 : 1/10 ≤ c) (hc2 : c ≤ 1) (h : ConfInv facts) :
    ConfInv (insert_fact facts fid s p o vf c n) := by
  intro f hf
  rcases List.mem_append.mp hf with hf1 | hf2
  · obtain ⟨f0, hf0, rfl⟩ := List.mem_map.mp hf1
    rw [closeOld_confidence]
    exact h f0 hf0
  · have hfe := List.mem_singleton.mp hf2
    subst hfe
    exact ⟨hc1, hc2⟩

lemma decayFact_conf_bounds (r : ℚ) (n : Int) (f : Fact) (hr : 0 ≤ r)
    (hvf : f.valid_to = none → f.valid_from ≤ n)
    (h1 : 1/10 ≤ f.confidence) (h2 : f.confidence ≤ 1) :
    1/10 ≤ (decayFact r n f).confidence ∧ (decayFact r n f).confidence ≤ 1 := by
  simp only [decayFact]
  split
  · exact ⟨h1, h2⟩
  · rename_i hopen
    split
    · exact ⟨h1, h2⟩
    · rename_i hbig
      have hdays : (0:ℚ) ≤ ((n - f.valid_from : Int) : ℚ) / 86400000 := by
        apply div_nonneg _ (by norm_num)
        have := hvf (not_not.mp hopen)
        exact_mod_cast Int.sub_nonneg.mpr this
      split
      · constructor
        · exact le_max_left _ _
        · apply max_le (by norm_num)
          have hconf0 : (0:ℚ) ≤ f.confidence := le_trans (by norm_num) h1
          have hfac : 1 - r * (((n - f.valid_from : Int) : ℚ) / 86400000) ≤ 1 := by
            have : 0 ≤ r * (((n - f.valid_from : Int) : ℚ) / 86400000) :=
              mul_nonneg hr hdays
            linarith
          calc f.confidence * (1 - r * (((n - f.valid_from : Int) : ℚ) / 86400000))
              ≤ f.confidence * 1 := mul_le_mul_of_nonneg_left hfac hconf0
            _ ≤ 1 := by rw [mul_one]; exact h2
      · exact ⟨h1, h2⟩

lemma confInv_decay (facts : List Fact) (r : ℚ) (n : Int) (h : ConfInv facts)
    (hr : 0 ≤ r) (hn : ∀ f ∈ facts, f.valid_to = none → f.valid_from ≤ n) :
    ConfInv (apply_confidence_decay facts r n) := by
  intro f hf
  obtain ⟨f0, hf0, rfl⟩ := List.mem_map.mp hf
  exact decayFact_conf_bounds r n f0 hr (hn f0 hf0) (h f0 hf0).1 (h f0 hf0).2

lemma runOps_confInv :
    ∀ (ops : List Op) (facts : List Fact), ConfInv facts →
      ValidTrace facts ops → ConfInv (runOps facts ops)
  | [], _, h, _ => h
  | op :: rest, facts, h, hv => by
    apply runOps_confInv rest
    · match op, hv with
      | .ins fid s p o vf c n, hv =>
          exact confInv_insert facts fid s p o vf c n hv.1.1 hv.1.2 h
      | .dec r n, hv =>
          exact confInv_decay facts r n h hv.1.1 hv.1.2
    · exact hv.2

/-- C3 (counterexample): as stated, the claim fails twice on the code.
`insert_fact` performs no validation of its `confidence` argument, so a
single insert with confidence 0.05 stores a fact with confidence outside
[0.1, 1]; and `apply_confidence_decay` run at a time before an open fact's
`valid_from` (here: a fact valid from 10 days in the future) computes a
negative `days`, a decay factor above 1, and pushes the confidence to 1.1,
above the claimed upper bound. -/
theorem C3_counterexample :
    (¬ ConfInv (runOps []
      [.ins "f1" "alice" "works_at" "google" 0 (1/20) 0])) ∧
    (¬ ConfInv (runOps []
      [.ins "f1" "alice" "works_at" "google" 864000000 1 0,
       .dec (1/100) 0])) := by
  constructor
  · intro h
    rw [c3BadState1_eq] at h
    have h10 := (h _ (List.mem_singleton.mpr rfl)).1
    norm_num at h10
  · intro h
    rw [c3BadState2_eq] at h
    have h10 := (h _ (List.mem_singleton.mpr rfl)).2
    norm_num at h10

/-- C3 (amended): along every trace of `insert_fact` / `apply_confidence_decay`
calls in which every inserted confidence lies in [0.1, 1] and every decay runs
with a nonnegative rate at a time not earlier than any open fact's
`valid_from`, every stored fact's confidence lies in [0.1, 1] at every point
between operations; moreover `apply_confidence_decay` leaves closed facts
(`valid_to` not null) unchanged and never lowers a confidence that is at
least 0.1 below 0.1. -/
theorem C3_confidenceBounds (ops : List Op) (h : ValidTrace [] ops) :
    ConfInv (runOps [] ops) ∧
    (∀ (r : ℚ) (n : Int) (f : Fact),
      (f.valid_to ≠ none → decayFact r n f = f) ∧
      (1/10 ≤ f.confidence → 1/10 ≤ (decayFact r n f).confidence)) := by
  constructor
  · exact runOps_confInv ops [] (fun f hf => absurd hf (List.not_mem_nil f)) h
  · intro r n f
    constructor
    · intro hc
      simp only [decayFact]
      rw [if_pos hc]
    · intro h1
      simp only [decayFact]
      split
      · exact h1
      · split
        · exact h1
        · split
          · exact le_max_left _ _
          · exact h1

/-- Witness for `C3_confidenceBounds` on a concrete valid trace: one insert at
full confidence followed by a decay pass one day later. -/
theorem C3_witness :
    ValidTrace [] [.ins "f1" "alice" "works_at" "google" 0 1 0,
      .dec (1/100) 86400000] ∧
    ConfInv (runOps [] [.ins "f1" "alice" "works_at" "google" 0 1 0,
      .dec (1/100) 86400000]) :=
  have hv : ValidTrace []
      [.ins "f1" "alice" "works_at" "google" 0 1 0,
       .dec (1/100) 86400000] :=
    ⟨by simp only [ValidOp]; norm_num,
     by
      simp only [ValidOp]
      refine ⟨by norm_num, ?_⟩
      intro f hf
      have hf' := List.mem_singleton.mp hf
      subst hf'
      exact fun _ => by decide,
     trivial⟩
  ⟨hv, (C3_confidenceBounds _ hv).1⟩

/-- C10: `query_at_time` treats an empty-string selector exactly like an
omitted selector, in each of the three selector positions, because the
filters test Python truthiness (temporal.py lines 159-164). -/
theorem C10_emptySelectorIsOmitted (facts : List Fact) (a b : Option String)
    (ts : Int) (minc : ℚ) :
    query_at_time facts (some "") a b ts minc
      = query_at_time facts none a b ts minc ∧
    query_at_time facts a (some "") b ts minc
      = query_at_time facts a none b ts minc ∧
    query_at_time facts a b (some "") ts minc
      = query_at_time facts a b none ts minc := by
  have hsel : ∀ v, selMatch (some "") v = selMatch none v := by
    intro v; simp [selMatch]
  refine ⟨?_, ?_, ?_⟩ <;>
    (unfold query_at_time; apply List.filter_congr; intro f hf;
      simp only [hsel])

end Temporal

namespace Decay

lemma reinforceIter_salience_eq (m : RMem) (b : ℚ) (n : Int)
    (hs1 : m.salience ≤ 1) (hb1 : b ≤ 1) :
    ∀ k, (reinforceIter m b n k).salience
      = 1 - (1 - m.salience) * (1 - b) ^ k
  | 0 => by
    simp only [reinforceIter]
    ring
  | k+1 => by
    have ih := reinforceIter_salience_eq m b n hs1 hb1 k
    have hnn : 0 ≤ (1 - m.salience) * (1 - b) ^ (k+1) :=
      mul_nonneg (by linarith) (pow_nonneg (by linarith) _)
    simp only [reinforceIter, reinforce, ih]
    have harg : 1 - (1 - m.salience) * (1 - b) ^ k
        + b * (1 - (1 - (1 - m.salience) * (1 - b) ^ k))
        = 1 - (1 - m.salience) * (1 - b) ^ (k+1) := by ring
    rw [harg]
    exact min_eq_right (by linarith)

/-- C5 (counterexample): the claim quantifies over every fixed boost.  With
boost 2 (salience 0), one reinforce yields min(1, 2) = 1 while the claimed
closed form gives 2; and with boost −1 (salience 0.5) the salience drops from
0.5 to 0, refuting "new salience ≥ old salience". -/
theorem C5_counterexample :
    ((reinforceIter { salience := 0, last_seen_at := 0, coactivations := 0 }
        2 0 1).salience ≠ 1 - (1 - (0:ℚ)) * (1 - 2) ^ 1) ∧
    ¬ ((reinforceIter { salience := 1/2, last_seen_at := 0, coactivations := 0 }
        (-1) 0 0).salience
      ≤ (reinforceIter { salience := 1/2, last_seen_at := 0, coactivations := 0 }
        (-1) 0 1).salience) := by
  constructor
  · norm_num [reinforceIter, reinforce]
  · norm_num [reinforceIter, reinforce]

/-- C5 (amended): for every starting salience s₀ ∈ [0,1] and fixed boost
b ∈ [0,1], applying `reinforce` k times yields salience exactly
1 − (1−s₀)(1−b)^k; consequently each application satisfies new ≥ old, and
when s₀ < 1 and 0 < b < 1 the salience stays strictly below 1 after every
finite number of applications. -/
theorem C5_reinforcementLaw (m : RMem) (boost : ℚ) (now : Int) (k : ℕ)
    (hs0 : 0 ≤ m.salience) (hs1 : m.salience ≤ 1)
    (hb0 : 0 ≤ boost) (hb1 : boost ≤ 1) :
    (reinforceIter m boost now k).salience
      = 1 - (1 - m.salience) * (1 - boost) ^ k ∧
    (∀ j : ℕ, (reinforceIter m boost now j).salience
      ≤ (reinforceIter m boost now (j+1)).salience) ∧
    (m.salience < 1 → 0 < boost → boost < 1 →
      (reinforceIter m boost now k).salience < 1) := by
  refine ⟨reinforceIter_salience_eq m boost now hs1 hb1 k, ?_, ?_⟩
  · intro j
    rw [reinforceIter_salience_eq m boost now hs1 hb1 j,
        reinforceIter_salience_eq m boost now hs1 hb1 (j+1)]
    have h1 : 0 ≤ (1 - m.salience) * (1 - boost) ^ j * boost :=
      mul_nonneg (mul_nonneg (by linarith) (pow_nonneg (by linarith) _)) hb0
    have h2 : (1 - m.salience) * (1 - boost) ^ (j+1)
        = (1 - m.salience) * (1 - boost) ^ j
          - (1 - m.salience) * (1 - boost) ^ j * boost := by ring
    rw [h2]
    linarith
  · intro hs hb0' hb1'
    rw [reinforceIter_salience_eq m boost now hs1 hb1 k]
    have h3 : 0 < (1 - m.salience) * (1 - boost) ^ k :=
      mul_pos (by linarith) (pow_pos (by linarith) _)
    linarith

/-- Witness for `C5_reinforcementLaw` at salience 0, boost 1, k = 3. -/
theorem C5_witness :
    (0:ℚ) ≤ 0 ∧ (0:ℚ) ≤ 1 ∧
    (reinforceIter { salience := 0, last_seen_at := 0, coactivations := 0 }
        1 0 3).salience = 1 - (1 - (0:ℚ)) * (1 - 1) ^ 3 :=
  ⟨le_refl 0, zero_le_one,
   (C5_reinforcementLaw { salience := 0, last_seen_at := 0, coactivations := 0 }
     1 0 3 (le_refl 0) zero_le_one zero_le_one (le_refl 1)).1⟩

lemma decayRate_nonneg (t : Tier) : 0 ≤ DECAY_RATES t := by
  cases t <;> norm_num [DECAY_RATES]

lemma clampDecay_le (s e : ℝ) (hs0 : 0 ≤ s) (he : e ≤ 1) :
    max 0 (min 1 (s * e)) ≤ s :=
  max_le hs0 (le_trans (min_le_right _ _) (mul_le_of_le_one_right hs0 he))

lemma calculate_decay_le (m : DMem) (now : Int) (lam : Option ℝ)
    (hs0 : 0 ≤ m.salience) (hlam : ∀ x ∈ lam, 0 ≤ x) :
    calculate_decay m now lam ≤ m.salience := by
  have key : ∀ r : ℝ, 0 ≤ r →
      max 0 (min 1 (m.salience * Real.exp
        (-(r * (max 0 (((now - m.last_seen_at : Int) : ℝ) / 86400000)
          / (m.salience + 1/10)))))) ≤ m.salience := by
    intro r hr
    have hden : (0:ℝ) < m.salience + 1/10 := by linarith
    have harg : 0 ≤ r * (max 0 (((now - m.last_seen_at : Int) : ℝ) / 86400000)
        / (m.salience + 1/10)) :=
      mul_nonneg hr (div_nonneg (le_max_left 0 _) (le_of_lt hden))
    exact clampDecay_le _ _ hs0
      (Real.exp_le_one_iff.mpr (neg_nonpos.mpr harg))
  simp only [calculate_decay, MIN_SALIENCE, MAX_SALIENCE]
  cases lam with
  | none => exact key _ (decayRate_nonneg _)
  | some l =>
    by_cases h0 : l = 0
    · simp only [h0, if_pos rfl]
      exact key _ (decayRate_nonneg _)
    · simp only [if_neg h0]
      exact key l (hlam l rfl)

lemma calculate_decay_eq_spec (m : DMem) (now : Int) (lam : Option ℝ)
    (hls : m.last_seen_at ≤ now) :
    calculate_decay m now lam = decaySpecSalience m now lam := by
  have hd : max 0 (((now - m.last_seen_at : Int) : ℝ) / 86400000)
      = ((now - m.last_seen_at : Int) : ℝ) / 86400000 :=
    max_eq_right (div_nonneg
      (by exact_mod_cast Int.sub_nonneg.mpr hls) (by norm_num))
  simp only [calculate_decay, decaySpecSalience, MIN_SALIENCE, MAX_SALIENCE,
    hd, mul_div_assoc]

lemma decayStep_pos (ls : String → Option ℝ) (now : Int)
    (acc : List (String × DMem) × List String) (p : String × DMem)
    (h : 1/1000 < |calculate_decay p.2 now (ls p.2.primary_sector)
      - p.2.salience|) :
    decayStep ls now acc p
      = (acc.1 ++ [(p.1, decayedMem ls now p)], acc.2 ++ [p.1]) := by
  unfold decayStep
  rw [if_pos h]

lemma decayStep_neg (ls : String → Option ℝ) (now : Int)
    (acc : List (String × DMem) × List String) (p : String × DMem)
    (h : ¬ 1/1000 < |calculate_decay p.2 now (ls p.2.primary_sector)
      - p.2.salience|) :
    decayStep ls now acc p = (acc.1 ++ [(p.1, p.2)], acc.2) := by
  unfold decayStep
  rw [if_neg h]

lemma decayWriteBack_pos (ls : String → Option ℝ) (now : Int)
    (p : String × DMem)
    (h : 1/1000 < |calculate_decay p.2 now (ls p.2.primary_sector)
      - p.2.salience|) :
    decayWriteBack ls now p = (p.1, decayedMem ls now p) := by
  unfold decayWriteBack
  rw [if_pos h]

lemma decayWriteBack_neg (ls : String → Option ℝ) (now : Int)
    (p : String × DMem)
    (h : ¬ 1/1000 < |calculate_decay p.2 now (ls p.2.primary_sector)
      - p.2.salience|) :
    decayWriteBack ls now p = p := by
  unfold decayWriteBack
  rw [if_neg h]

lemma decayCounted_pos (ls : String → Option ℝ) (now : Int)
    (p : String × DMem)
    (h : 1/1000 < |calculate_decay p.2 now (ls p.2.primary_sector)
      - p.2.salience|) :
    decayCounted ls now p = some p.1 := by
  unfold decayCounted
  rw [if_pos h]

lemma decayCounted_neg (ls : String → Option ℝ) (now : Int)
    (p : String × DMem)
    (h : ¬ 1/1000 < |calculate_decay p.2 now (ls p.2.primary_sector)
      - p.2.salience|) :
    decayCounted ls now p = none := by
  unfold decayCounted
  rw [if_neg h]

lemma decay_foldl (ls : String → Option ℝ) (now : Int) :
    ∀ (mems : List (String × DMem)) (acc : List (String × DMem) × List String),
      mems.foldl (decayStep ls now) acc
        = (acc.1 ++ mems.map (decayWriteBack ls now),
           acc.2 ++ mems.filterMap (decayCounted ls now))
  | [], acc => by simp
  | p :: rest, acc => by
    rw [List.foldl_cons, decay_foldl ls now rest, List.map_cons,
      List.filterMap_cons]
    by_cases hc : 1/1000 <
        |calculate_decay p.2 now (ls p.2.primary_sector) - p.2.salience|
    · rw [decayStep_pos ls now acc p hc, decayWriteBack_pos ls now p hc,
        decayCounted_pos ls now p hc]
      simp [List.append_assoc]
    · rw [decayStep_neg ls now acc p hc, decayWriteBack_neg ls now p hc,
        decayCounted_neg ls now p hc]
      simp [List.append_assoc]

/-- C6 (counterexample): as stated, the claim fails twice on the code.  The
Python idiom `sector_decay_lambda or DECAY_RATES[tier]` treats a supplied
rate of 0.0 as unsupplied, so with sector rate 0 the code still decays a
warm memory (the claimed formula with λ = 0 would leave salience 0.5
unchanged); and a supplied negative rate −1 grows the salience of that
memory to 1 > 0.5, refuting "post-decay salience ≤ pre-decay salience". -/
theorem C6_counterexample :
    (calculate_decay dmemHalf 86400000 (some 0)
      ≠ claimedDecayC6 dmemHalf 86400000 0) ∧
    ¬ (calculate_decay dmemHalf 86400000 (some (-1))
      ≤ dmemHalf.salience) := by
  have htier : pick_tier dmemHalf 86400000 = Tier.warm := by
    norm_num [pick_tier, dmemHalf, HOT_RECENCY_DAYS, HOT_SALIENCE,
      WARM_SALIENCE]
  constructor
  · have hrhs : claimedDecayC6 dmemHalf 86400000 0 = 1/2 := by
      norm_num [claimedDecayC6, dmemHalf, Real.exp_zero]
    have hlhs : calculate_decay dmemHalf 86400000 (some 0)
        = max 0 (min 1 ((1:ℝ)/2 * Real.exp (-(1/50 * (1 / (1/2 + 1/10)))))) := by
      simp only [calculate_decay, MIN_SALIENCE, MAX_SALIENCE]
      rw [if_pos trivial, htier]
      simp only [DECAY_RATES]
      norm_num [dmemHalf]
    rw [hlhs, hrhs]
    have hexp : Real.exp (-(1/50 * (1 / ((1:ℝ)/2 + 1/10)))) < 1 :=
      Real.exp_lt_one_iff.mpr (by norm_num)
    have hpos : (0:ℝ) < Real.exp (-(1/50 * (1 / ((1:ℝ)/2 + 1/10)))) :=
      Real.exp_pos _
    have hv : (0:ℝ) < (1:ℝ)/2 * Real.exp (-(1/50 * (1 / ((1:ℝ)/2 + 1/10))))
        := by positivity
    have hv2 : (1:ℝ)/2 * Real.exp (-(1/50 * (1 / ((1:ℝ)/2 + 1/10)))) < 1/2
        := by nlinarith
    intro heq
    rw [max_eq_right (le_of_lt (lt_min (by norm_num) hv)),
      min_eq_right (by linarith)] at heq
    exact absurd heq (ne_of_lt hv2)
  · have hlhs : calculate_decay dmemHalf 86400000 (some (-1))
        = max 0 (min 1 ((1:ℝ)/2 * Real.exp (-(-1 * (1 / (1/2 + 1/10)))))) := by
      simp only [calculate_decay, MIN_SALIENCE, MAX_SALIENCE]
      rw [if_neg (by norm_num : ¬((-1:ℝ) = 0))]
      norm_num [dmemHalf]
    rw [hlhs]
    have hexp : (1:ℝ) + (1 * (1 / ((1:ℝ)/2 + 1/10)))
        ≤ Real.exp (-(-1 * (1 / ((1:ℝ)/2 + 1/10)))) := by
      have := Real.add_one_le_exp (-(-1 * (1 / ((1:ℝ)/2 + 1/10))))
      linarith
    have hbig : (1:ℝ) ≤ (1:ℝ)/2 * Real.exp (-(-1 * (1 / ((1:ℝ)/2 + 1/10))))
        := by nlinarith
    rw [min_eq_left hbig, max_eq_right (by norm_num : (0:ℝ) ≤ 1)]
    norm_num [dmemHalf]

/-- C6 (amended): for every memory with salience ≥ 0 and `last_seen_at ≤
now`, `calculate_decay` computes exactly
clamp(s · exp(−λ · days / (s + 0.1)), 0, 1) with days =
(now − last_seen_at)/86400000 and λ the sector-specific rate when supplied
and nonzero (a supplied 0.0 falls back to the tier rate, by Python
truthiness), otherwise the tier rate (`decaySpecSalience`); whenever every
supplied sector rate is nonnegative the post-decay salience never exceeds
the pre-decay salience; and the batch pass writes the new salience back,
and counts the memory as updated, exactly when |new − old| > 0.001. -/
theorem C6_decayClamp :
    (∀ (m : DMem) (now : Int) (lam : Option ℝ),
      m.last_seen_at ≤ now →
      calculate_decay m now lam = decaySpecSalience m now lam) ∧
    (∀ (m : DMem) (now : Int) (lam : Option ℝ),
      0 ≤ m.salience → (∀ x ∈ lam, 0 ≤ x) →
      calculate_decay m now lam ≤ m.salience) ∧
    (∀ (mems : List (String × DMem)) (ls : String → Option ℝ) (now : Int),
      (apply_decay_to_memories mems ls now).1
        = mems.map (decayWriteBack ls now) ∧
      (apply_decay_to_memories mems ls now).2
        = mems.filterMap (decayCounted ls now)) := by
  refine ⟨fun m now lam hls => calculate_decay_eq_spec m now lam hls,
    fun m now lam hs0 hlam => calculate_decay_le m now lam hs0 hlam,
    fun mems ls now => ?_⟩
  unfold apply_decay_to_memories
  rw [decay_foldl ls now mems ([], [])]
  exact ⟨by simp, by simp⟩

/-- Witness for `C6_decayClamp` at a concrete memory. -/
theorem C6_witness :
    (dmemZero.last_seen_at ≤ (0:Int)) ∧ (0:ℝ) ≤ dmemZero.salience ∧
    calculate_decay dmemZero 0 none = decaySpecSalience dmemZero 0 none ∧
    calculate_decay dmemZero 0 none ≤ dmemZero.salience :=
  ⟨le_refl 0, le_refl 0,
   C6_decayClamp.1 dmemZero 0 none (le_refl 0),
   C6_decayClamp.2.1 dmemZero 0 none (le_refl 0) (fun x hx => by simp at hx)⟩

end Decay

namespace Waypoint

/-- Every neighbour returned by `get_neighbors` corresponds to a stored
edge of that weight. -/
lemma get_neighbors_edgeOf (g : Graph) (x : String) :
    ∀ n ∈ get_neighbors g x, EdgeOf g x n.id n.weight := by
  intro n hn
  unfold get_neighbors at hn
  cases hfind : lookupDsts g x with
  | none => rw [hfind] at hn; simp at hn
  | some dsts =>
    rw [hfind] at hn
    rw [List.mem_mergeSort] at hn
    obtain ⟨q, hq, rfl⟩ := List.mem_map.mp hn
    exact ⟨dsts, hfind, q.2, hq, rfl⟩

lemma edgeOf_bounds (g : Graph) (hpos : PosWeights g) (src d : String)
    (w : ℚ) (he : EdgeOf g src d w) : 0 < w ∧ w ≤ 1 := by
  obtain ⟨dsts, hds, e, hed, hew⟩ := he
  unfold lookupDsts at hds
  obtain ⟨pair, hfind, hsnd⟩ := Option.map_eq_some'.mp hds
  have hmem := List.mem_of_find?_eq_some hfind
  have hb := hpos pair hmem (d, e) (by rw [hsnd]; exact hed)
  rw [hew] at hb
  exact hb

lemma goodItem_pos (g : Graph) (seeds : List String) (hpos : PosWeights g) :
    ∀ i, GoodItem g seeds i → 0 < i.weight := by
  intro i hi
  induction hi with
  | seed s h => norm_num
  | step cur d w hc he ih =>
    have hw := (edgeOf_bounds g hpos cur.id d w he).1
    show 0 < cur.weight * w * (4/5)
    positivity

/-- Specification of the inner neighbour loop (`expandStep`): the emitted
children extend the accumulator, are legitimate single steps from `current`
meeting the weight floor, carry fresh ids which are recorded as visited, and
the counter tracks them, never passing `max_expansion` once below it. -/
lemma expandStep_spec (g : Graph) (seeds : List String) (minw : ℚ)
    (maxe : ℕ) (current : EItem) (hcur : GoodItem g seeds current) :
    ∀ (ns : List Neighbor) (visited : List String) (count : ℕ)
      (emitted : List EItem),
      (∀ n ∈ ns, EdgeOf g current.id n.id n.weight) →
      ∃ new : List EItem,
        (expandStep minw maxe current ns visited count emitted).2.2
          = emitted ++ new ∧
        (∀ x ∈ visited,
          x ∈ (expandStep minw maxe current ns visited count emitted).1) ∧
        (∀ i ∈ new, GoodItem g seeds i ∧ StepFrom g seeds i ∧
          minw ≤ i.weight ∧ i.id ∉ visited ∧
          i.id ∈ (expandStep minw maxe current ns visited count emitted).1) ∧
        (new.map EItem.id).Nodup ∧
        (expandStep minw maxe current ns visited count emitted).2.1
          = count + new.length ∧
        (count < maxe →
          (expandStep minw maxe current ns visited count emitted).2.1 ≤ maxe)
  | [], visited, count, emitted, _ => by
    refine ⟨[], by simp [expandStep], fun x hx => ?_, by simp, by simp,
      by simp [expandStep], fun h => ?_⟩
    · simpa [expandStep] using hx
    · simpa [expandStep] using Nat.le_of_lt h
  | n :: rest, visited, count, emitted, hn => by
    have hedge := hn n (List.mem_cons_self n rest)
    have hrest : ∀ m ∈ rest, EdgeOf g current.id m.id m.weight :=
      fun m hm => hn m (List.mem_cons_of_mem n hm)
    by_cases hv : n.id ∈ visited
    · have heq : expandStep minw maxe current (n :: rest) visited count emitted
          = expandStep minw maxe current rest visited count emitted := by
        simp only [expandStep.eq_2]
        rw [if_pos hv]
      rw [heq]
      exact expandStep_spec g seeds minw maxe current hcur rest visited count
        emitted hrest
    · by_cases hw : current.weight * n.weight * (4/5) < minw
      · have heq : expandStep minw maxe current (n :: rest) visited count
            emitted
            = expandStep minw maxe current rest visited count emitted := by
          simp only [expandStep.eq_2]
          rw [if_neg hv, if_pos hw]
        rw [heq]
        exact expandStep_spec g seeds minw maxe current hcur rest visited
          count emitted hrest
      · have hitem : GoodItem g seeds
            { id := n.id,
              weight := current.weight * n.weight * (4/5),
              path := current.path ++ [n.id] } :=
          GoodItem.step current n.id n.weight hcur hedge
        have hstep : StepFrom g seeds
            { id := n.id,
              weight := current.weight * n.weight * (4/5),
              path := current.path ++ [n.id] } :=
          ⟨current, n.id, n.weight, hcur, hedge, rfl⟩
        by_cases hm : maxe ≤ count + 1
        · have heq : expandStep minw maxe current (n :: rest) visited count
              emitted
              = (n.id :: visited, count + 1, emitted ++
                  [{ id := n.id,
                     weight := current.weight * n.weight * (4/5),
                     path := current.path ++ [n.id] }]) := by
            simp only [expandStep.eq_2]
            rw [if_neg hv, if_neg hw, if_pos hm]
          rw [heq]
          refine ⟨[{ id := n.id,
                     weight := current.weight * n.weight * (4/5),
                     path := current.path ++ [n.id] }], rfl,
            fun x hx => List.mem_cons_of_mem n.id hx,
            fun i hi => ?_, by simp, by simp,
            fun h => by show count + 1 ≤ maxe; omega⟩
          have hie := List.mem_singleton.mp hi
          subst hie
          exact ⟨hitem, hstep, not_lt.mp hw, hv,
            List.mem_cons_self n.id visited⟩
        · have heq : expandStep minw maxe current (n :: rest) visited count
              emitted
              = expandStep minw maxe current rest (n.id :: visited) (count + 1)
                  (emitted ++
                    [{ id := n.id,
                       weight := current.weight * n.weight * (4/5),
                       path := current.path ++ [n.id] }]) := by
            simp only [expandStep.eq_2]
            rw [if_neg hv, if_neg hw, if_neg hm]
          rw [heq]
          obtain ⟨new, h1, h2, h3, h4, h5, h6⟩ :=
            expandStep_spec g seeds minw maxe current hcur rest
              (n.id :: visited) (count + 1)
              (emitted ++
                [{ id := n.id,
                   weight := current.weight * n.weight * (4/5),
                   path := current.path ++ [n.id] }]) hrest
          refine ⟨{ id := n.id,
                    weight := current.weight * n.weight * (4/5),
                    path := current.path ++ [n.id] } :: new,
            by rw [h1, List.append_assoc, List.singleton_append],
            fun x hx => h2 x (List.mem_cons_of_mem n.id hx),
            fun i hi => ?_, ?_, by rw [h5]; simp; omega,
            fun _ => h6 (not_le.mp hm)⟩
          · rcases List.mem_cons.mp hi with hie | hir
            · subst hie
              exact ⟨hitem, hstep, not_lt.mp hw, hv,
                h2 n.id (List.mem_cons_self n.id visited)⟩
            · obtain ⟨hg, hs, hwt, hnv, hin⟩ := h3 i hir
              exact ⟨hg, hs, hwt,
                fun hx => hnv (List.mem_cons_of_mem n.id hx), hin⟩
          · rw [List.map_cons]
            refine List.nodup_cons.mpr ⟨?_, h4⟩
            intro hx
            obtain ⟨i, hi, hid⟩ := List.mem_map.mp hx
            exact (h3 i hi).2.2.2.1 (hid ▸ List.mem_cons_self n.id visited)

/-- Specification of the outer BFS loop (`expandLoop`), by induction on the
fuel: under the loop invariants, everything ever emitted is a legitimate
weighted step meeting the weight floor, carries an id that is neither a seed
nor a duplicate, and the total number of emissions never exceeds
`max_expansion`. -/
lemma expandLoop_spec (g : Graph) (seeds : List String) (minw : ℚ)
    (maxe : ℕ) :
    ∀ (fuel : ℕ) (queue : List EItem) (visited : List String) (count : ℕ)
      (expanded : List EItem),
      (∀ i ∈ queue, GoodItem g seeds i) →
      (∀ i ∈ expanded, GoodItem g seeds i ∧ StepFrom g seeds i ∧
        minw ≤ i.weight ∧ i.id ∉ seeds ∧ i.id ∈ visited) →
      (expanded.map EItem.id).Nodup →
      (∀ s ∈ seeds, s ∈ visited) →
      count = expanded.length →
      count ≤ maxe →
      (∀ i ∈ expandLoop g minw maxe fuel queue visited count expanded,
        GoodItem g seeds i ∧ StepFrom g seeds i ∧ minw ≤ i.weight ∧
        i.id ∉ seeds) ∧
      ((expandLoop g minw maxe fuel queue visited count expanded).map
        EItem.id).Nodup ∧
      (expandLoop g minw maxe fuel queue visited count expanded).length
        ≤ maxe
  | 0, queue, visited, count, expanded => by
    intro _ hexp hnd _ hlen hle
    simp only [expandLoop]
    exact ⟨fun i hi => ⟨(hexp i hi).1, (hexp i hi).2.1, (hexp i hi).2.2.1,
      (hexp i hi).2.2.2.1⟩, hnd, hlen ▸ hle⟩
  | fuel+1, [], visited, count, expanded => by
    intro _ hexp hnd _ hlen hle
    simp only [expandLoop]
    exact ⟨fun i hi => ⟨(hexp i hi).1, (hexp i hi).2.1, (hexp i hi).2.2.1,
      (hexp i hi).2.2.2.1⟩, hnd, hlen ▸ hle⟩
  | fuel+1, current :: rest, visited, count, expanded => by
    intro hq hexp hnd hseed hlen hle
    by_cases hc : maxe ≤ count
    · have heq : expandLoop g minw maxe (fuel+1) (current :: rest) visited
          count expanded = expanded := by
        simp only [expandLoop.eq_3]
        rw [if_pos hc]
      rw [heq]
      exact ⟨fun i hi => ⟨(hexp i hi).1, (hexp i hi).2.1, (hexp i hi).2.2.1,
        (hexp i hi).2.2.2.1⟩, hnd, hlen ▸ hle⟩
    · obtain ⟨new, h1, h2, h3, h4, h5, h6⟩ :=
        expandStep_spec g seeds minw maxe current
          (hq current (List.mem_cons_self current rest))
          (get_neighbors g current.id) visited count []
          (get_neighbors_edgeOf g current.id)
      rw [List.nil_append] at h1
      have heq : expandLoop g minw maxe (fuel+1) (current :: rest) visited
          count expanded
          = expandLoop g minw maxe fuel
              (rest ++ (expandStep minw maxe current
                (get_neighbors g current.id) visited count []).2.2)
              (expandStep minw maxe current (get_neighbors g current.id)
                visited count []).1
              (expandStep minw maxe current (get_neighbors g current.id)
                visited count []).2.1
              (expanded ++ (expandStep minw maxe current
                (get_neighbors g current.id) visited count []).2.2) := by
        simp only [expandLoop.eq_3]
        rw [if_neg hc]
      rw [heq, h1, h5]
      apply expandLoop_spec g seeds minw maxe fuel
      · intro i hi
        rcases List.mem_append.mp hi with hir | hin
        · exact hq i (List.mem_cons_of_mem current hir)
        · exact (h3 i hin).1
      · intro i hi
        rcases List.mem_append.mp hi with hie | hin
        · obtain ⟨hg, hs, hwt, hns, hinv⟩ := hexp i hie
          exact ⟨hg, hs, hwt, hns, h2 i.id hinv⟩
        · obtain ⟨hg, hs, hwt, hnv, hin'⟩ := h3 i hin
          exact ⟨hg, hs, hwt, fun hx => hnv (hseed i.id hx), hin'⟩
      · rw [List.map_append]
        refine List.nodup_append.mpr ⟨hnd, h4, ?_⟩
        intro x hx hy
        obtain ⟨i, hi, hid⟩ := List.mem_map.mp hx
        obtain ⟨j, hj, hjd⟩ := List.mem_map.mp hy
        have hxv : x ∈ visited := hid ▸ (hexp i hi).2.2.2.2
        exact (h3 j hj).2.2.2.1 (hjd ▸ hxv)
      · intro s hs
        exact h2 s (hseed s hs)
      · rw [List.length_append, hlen]
      · rw [← h5]
        exact h6 (not_le.mp hc)

/-- C7: for every waypoint graph, seed list, expansion cap and weight floor,
`expand` (1) never emits a seed id, (2) never emits the same id twice,
(3) emits at most `max_expansion` items, (4) emits only legitimate traversal
steps — each emitted item is reachable from a seed (weight 1) by edge steps,
and is itself one step from a parent item with weight
parent.weight · edge.weight · 0.8 over an existing edge and with weight at
least `min_weight` — (5) when all edge weights lie in (0, 1] each emitted
item's weight is strictly below its parent's, so weights strictly decrease
along any single path, and (6) returns the items sorted by weight
descending. -/
theorem C7_expandContract (g : Graph) (seed_ids : List String)
    (max_expansion : ℕ) (min_weight : ℚ) :
    (∀ i ∈ expand g seed_ids max_expansion min_weight, i.id ∉ seed_ids) ∧
    ((expand g seed_ids max_expansion min_weight).map EItem.id).Nodup ∧
    (expand g seed_ids max_expansion min_weight).length ≤ max_expansion ∧
    (∀ i ∈ expand g seed_ids max_expansion min_weight,
      GoodItem g seed_ids i ∧ StepFrom g seed_ids i ∧
        min_weight ≤ i.weight) ∧
    (PosWeights g → ∀ i ∈ expand g seed_ids max_expansion min_weight,
      ∃ cur d w, GoodItem g seed_ids cur ∧ EdgeOf g cur.id d w ∧
        i = { id := d,
              weight := cur.weight * w * (4/5),
              path := cur.path ++ [d] } ∧
        i.weight < cur.weight) ∧
    ((expand g seed_ids max_expansion min_weight).map EItem.weight).Sorted
      (· ≥ ·) := by
  obtain ⟨hall, hnd, hlen⟩ :=
    expandLoop_spec g seed_ids min_weight max_expansion
      (max_expansion + seed_ids.length + 1)
      (seed_ids.map fun sid =>
        ({ id := sid, weight := 1, path := [sid] } : EItem))
      seed_ids 0 []
      (fun i hi => by
        obtain ⟨s, hs, rfl⟩ := List.mem_map.mp hi
        exact GoodItem.seed s hs)
      (fun i hi => absurd hi (List.not_mem_nil i))
      (by simp)
      (fun s hs => hs)
      (by simp)
      (Nat.zero_le _)
  have hexp_eq : expand g seed_ids max_expansion min_weight
      = (expandLoop g min_weight max_expansion
          (max_expansion + seed_ids.length + 1)
          (seed_ids.map fun sid =>
            ({ id := sid, weight := 1, path := [sid] } : EItem))
          seed_ids 0 []).mergeSort
        (fun a b => decide (b.weight ≤ a.weight)) := rfl
  have hperm := List.mergeSort_perm
    (expandLoop g min_weight max_expansion
      (max_expansion + seed_ids.length + 1)
      (seed_ids.map fun sid =>
        ({ id := sid, weight := 1, path := [sid] } : EItem))
      seed_ids 0 [])
    (fun a b => decide (b.weight ≤ a.weight))
  have hmem : ∀ i ∈ expand g seed_ids max_expansion min_weight,
      i ∈ expandLoop g min_weight max_expansion
        (max_expansion + seed_ids.length + 1)
        (seed_ids.map fun sid =>
          ({ id := sid, weight := 1, path := [sid] } : EItem))
        seed_ids 0 [] := by
    intro i hi
    rw [hexp_eq, List.mem_mergeSort] at hi
    exact hi
  refine ⟨fun i hi => (hall i (hmem i hi)).2.2.2, ?_, ?_,
    fun i hi => ⟨(hall i (hmem i hi)).1, (hall i (hmem i hi)).2.1,
      (hall i (hmem i hi)).2.2.1⟩, ?_, ?_⟩
  · rw [hexp_eq]
    exact ((hperm.map EItem.id).nodup_iff).mpr hnd
  · rw [hexp_eq, hperm.length_eq]
    exact hlen
  · intro hpos i hi
    obtain ⟨cur, d, w, hcur, he, hieq⟩ := (hall i (hmem i hi)).2.1
    refine ⟨cur, d, w, hcur, he, hieq, ?_⟩
    rw [hieq]
    have hcw := goodItem_pos g seed_ids hpos cur hcur
    obtain ⟨hw0, hw1⟩ := edgeOf_bounds g hpos cur.id d w he
    show cur.weight * w * (4/5) < cur.weight
    nlinarith
  · rw [hexp_eq]
    have hsorted := @List.sorted_mergeSort EItem
      (fun a b : EItem => decide (b.weight ≤ a.weight))
      (fun a b c hab hbc => by
        simp only [decide_eq_true_eq] at *
        exact le_trans hbc hab)
      (fun a b => by
        simp only [Bool.or_eq_true, decide_eq_true_eq]
        exact le_total b.weight a.weight)
      (expandLoop g min_weight max_expansion
        (max_expansion + seed_ids.length + 1)
        (seed_ids.map fun sid =>
          ({ id := sid, weight := 1, path := [sid] } : EItem))
        seed_ids 0 [])
    unfold List.Sorted
    rw [List.pairwise_map]
    exact hsorted.imp fun h => of_decide_eq_true h

/-- Witness for `C7_expandContract` on a concrete two-node graph with unit
edge weights, discharging the edge-weight-range hypothesis of the strict
decrease conjunct. -/
theorem C7_witness :
    PosWeights c7Graph ∧
    ∀ i ∈ expand c7Graph ["m1"] 10 (1/10),
      ∃ cur d w, GoodItem c7Graph ["m1"] cur ∧ EdgeOf c7Graph cur.id d w ∧
        i = { id := d,
              weight := cur.weight * w * (4/5),
              path := cur.path ++ [d] } ∧
        i.weight < cur.weight :=
  ⟨by decide,
   (C7_expandContract c7Graph ["m1"] 10 (1/10)).2.2.2.2.1 (by decide)⟩

end Waypoint

namespace Memory

/-- `WaypointGraph.remove_memory` removes every edge whose source or
destination is the removed id. -/
lemma remove_memory_noIncident (g : Waypoint.Graph) (mid : String) :
    NoIncident (Waypoint.remove_memory g mid) mid := by
  intro p hp
  unfold Waypoint.remove_memory at hp
  obtain ⟨q, hq, rfl⟩ := List.mem_map.mp hp
  have hqf := List.mem_filter.mp hq
  refine ⟨by simpa using hqf.2, ?_⟩
  intro r hr
  have hrf := List.mem_filter.mp hr
  simpa using hrf.2

/-- C8: after every successful `delete`, the waypoint graph holds no edge
whose source or destination is the deleted id; and in the concrete scenario
(m1, m2, m3 with bidirectional edges m1↔m2, m1↔m3, then delete m1) the
delete succeeds, `get_neighbors m2` contains no entry with id m1, and
`get_neighbors m1` is empty. -/
theorem C8_deleteCascades :
    (∀ (st : MState) (mid : String) (uid : Option String),
      (delete st mid uid).1 = true →
      NoIncident ((delete st mid uid).2).waypoints mid) ∧
    ((delete c8State "m1" none).1 = true ∧
      (∀ nb ∈ Waypoint.get_neighbors ((delete c8State "m1" none).2).waypoints
          "m2", nb.id ≠ "m1") ∧
      Waypoint.get_neighbors ((delete c8State "m1" none).2).waypoints "m1"
        = []) := by
  constructor
  · intro st mid uid hdel
    unfold delete at hdel ⊢
    cases hlook : lookupMem st.memories mid with
    | none =>
      rw [hlook] at hdel
      simp at hdel
    | some mem =>
      rw [hlook] at hdel
      dsimp only at hdel ⊢
      by_cases huid : mem.user_id ≠ resolveUid uid st.default_user
      · rw [if_pos huid] at hdel
        exact absurd hdel (by simp)
      · rw [if_neg huid]
        exact remove_memory_noIncident st.waypoints mid
  · refine ⟨by decide, ?_, ?_⟩
    · have hd : Waypoint.lookupDsts
          ((delete c8State "m1" none).2).waypoints "m2" = some [] := rfl
      have hX : Waypoint.get_neighbors
          ((delete c8State "m1" none).2).waypoints "m2" = [] := by
        unfold Waypoint.get_neighbors
        rw [hd]
        simp
      intro nb hnb
      rw [hX] at hnb
      exact absurd hnb (List.not_mem_nil nb)
    · have hd : Waypoint.lookupDsts
          ((delete c8State "m1" none).2).waypoints "m1" = none := rfl
      unfold Waypoint.get_neighbors
      rw [hd]

/-- Witness for the general half of `C8_deleteCascades` at the scenario
state. -/
theorem C8_witness :
    (delete c8State "m1" none).1 = true ∧
    NoIncident ((delete c8State "m1" none).2).waypoints "m1" :=
  ⟨by decide, C8_deleteCascades.1 c8State "m1" none (by decide)⟩

/-- C9: when the id is absent from the store, or the stored memory's tenant
differs from the caller's (defaulted, with Python truthiness) tenant, `get`
returns null and `delete` returns false with the state — memories, waypoints
and facts — completely unchanged. -/
theorem C9_notFoundNoEffect (st : MState) (mid : String) (uid : Option String)
    (h : lookupMem st.memories mid = none ∨
      ∃ mem, lookupMem st.memories mid = some mem ∧
        mem.user_id ≠ resolveUid uid st.default_user) :
    get st mid uid = none ∧ delete st mid uid = (false, st) := by
  rcases h with hnone | ⟨mem, hsome, hne⟩
  · constructor
    · unfold get
      rw [hnone]
    · unfold delete
      rw [hnone]
  · constructor
    · unfold get
      rw [hsome]
      simp [hne]
    · unfold delete
      rw [hsome]
      simp [hne]

/-- Witness for `C9_notFoundNoEffect`: an id absent from the scenario
state. -/
theorem C9_witness :
    (lookupMem c8State.memories "zzz" = none ∨
      ∃ mem, lookupMem c8State.memories "zzz" = some mem ∧
        mem.user_id ≠ resolveUid none c8State.default_user) ∧
    get c8State "zzz" none = none ∧
    delete c8State "zzz" none = (false, c8State) :=
  ⟨Or.inl (by decide), C9_notFoundNoEffect c8State "zzz" none
    (Or.inl (by decide))⟩

end Memory

namespace Dual

lemma dedupGo_subset (sim : String → String → ℚ) :
    ∀ (rest kept : List RResult) (x : RResult),
      x ∈ dedupGo sim kept rest → x ∈ kept ++ rest
  | [], kept, x => by
    simp [dedupGo]
  | r :: rest, kept, x => by
    simp only [dedupGo]
    split
    · intro hx
      rcases List.mem_append.mp (dedupGo_subset sim rest kept x hx) with h | h
      · exact List.mem_append.mpr (Or.inl h)
      · exact List.mem_append.mpr (Or.inr (List.mem_cons_of_mem r h))
    · intro hx
      rcases List.mem_append.mp (dedupGo_subset sim rest (kept ++ [r]) x hx)
        with h | h
      · rcases List.mem_append.mp h with h₁ | h₁
        · exact List.mem_append.mpr (Or.inl h₁)
        · rw [List.mem_singleton.mp h₁]
          exact List.mem_append.mpr (Or.inr (List.mem_cons_self r rest))
      · exact List.mem_append.mpr (Or.inr (List.mem_cons_of_mem r h))

lemma deduplicate_subset (sim : String → String → ℚ)
    (results : List RResult) :
    ∀ x ∈ deduplicate sim results, x ∈ results := by
  intro x hx
  unfold deduplicate at hx
  split at hx
  · exact hx
  · simpa using dedupGo_subset sim results [] x hx

/-- C4 (counterexample): `recall` computes `fetch_limit = int(limit * 1.5)`,
which truncates.  At limit 1 the fetch is 1, not ⌈1.5⌉ = 2: against a
project search answering content "A" at request size 1 and "B" at any other
size (and an empty user search), recall returns content "A", which a fetch
of (3·1+1)/2 = 2 — the claimed ⌈1.5·limit⌉ — could never produce. -/
theorem C4_counterexample :
    ((«recall» c4SpyProject c4SpyUser c4Sim 1).map RResult.content = ["A"]) ∧
    ((c4SpyProject 2).map RResult.content = ["B"]) ∧
    c4SpyUser 2 = [] ∧ (3 * 1 + 1) / 2 = 2 := by
  refine ⟨rfl, by decide, rfl, by decide⟩

/-- C4 (amended): for every limit ≥ 1, every returned result of the router's
recall is drawn from the ⌊1.5·limit⌋ = 3·limit/2 results requested from the
project core — tagged with scope "project", its original score saved, and its
score multiplied by the 1.2 boost (`tagProject`) — or from the
⌊1.5·limit⌋ results requested from the user core, tagged with scope "user"
(`tagUser`). -/
theorem C4_recallRouting (limit : ℕ) (hl : 1 ≤ limit)
    (searchProject searchUser : ℕ → List RResult)
    (sim : String → String → ℚ) :
    ∀ r ∈ «recall» searchProject searchUser sim limit,
      (∃ r0 ∈ searchProject (3 * limit / 2), r.scope = some "project" ∧
        r.score = r0.score * PROJECT_BOOST ∧ r = tagProject r0) ∨
      (∃ r0 ∈ searchUser (3 * limit / 2), r.scope = some "user" ∧
        r.score = r0.score ∧ r = tagUser r0) := by
  intro r hr
  have hsplit : r ∈ (searchProject (3 * limit / 2)).map tagProject
      ++ (searchUser (3 * limit / 2)).map tagUser := by
    simp only [«recall»] at hr
    split at hr
    · exact List.take_subset limit _ hr
    · have h1 := List.take_subset limit _ hr
      rw [List.mem_mergeSort] at h1
      exact deduplicate_subset sim _ r h1
  rcases List.mem_append.mp hsplit with h | h
  · obtain ⟨r0, hr0, rfl⟩ := List.mem_map.mp h
    exact Or.inl ⟨r0, hr0, rfl, rfl, rfl⟩
  · obtain ⟨r0, hr0, rfl⟩ := List.mem_map.mp h
    exact Or.inr ⟨r0, hr0, rfl, rfl, rfl⟩

/-- Witness for `C4_recallRouting` at limit 1 with the instrumented
searches: the single returned result is the boosted, project-tagged "A". -/
theorem C4_witness :
    1 ≤ 1 ∧
    ((∃ r0 ∈ c4SpyProject (3 * 1 / 2),
      (tagProject c4A).scope = some "project" ∧
      (tagProject c4A).score = r0.score * PROJECT_BOOST ∧
      tagProject c4A = tagProject r0) ∨
    (∃ r0 ∈ c4SpyUser (3 * 1 / 2),
      (tagProject c4A).scope = some "user" ∧
      (tagProject c4A).score = r0.score ∧
      tagProject c4A = tagUser r0)) :=
  ⟨le_refl 1,
   C4_recallRouting 1 (le_refl 1) c4SpyProject c4SpyUser c4Sim
     (tagProject c4A) (List.mem_singleton.mpr rfl)⟩

end Dual

end MemVid
